import Mathlib

/-
Verification of the k-mer counting engine and worker-pool quota logic of the
kmap web service.  The Rust sources in `src/kmap_algorithms/kmer_count.rs` and
`src/worker/worker.rs` are shallowly embedded: byte strings become `List Nat`
(ASCII codes, A=65 C=67 G=71 T=84), `u64`/`u32` arithmetic becomes `Nat`
arithmetic reduced modulo `2^64` / `2^32` exactly where the machine operation
can wrap, Rust panics become `Option.none` results, and the `HashMap` count
table becomes an association list updated with the same insert-or-increment
discipline as `entry(k).or_insert(0) += c`.
-/

/-- The modulus of Rust `u64` arithmetic. -/
def u64Mod : Nat := 18446744073709551616

/-- The modulus of Rust `u32` arithmetic. -/
def u32Mod : Nat := 4294967296

/-- The `match hash & 3` arm of `hash2kmer`: 0 to A, 1 to C, 2 to G, other to T
(ASCII codes 65, 67, 71, 84). -/
def hash2kmerBase (d : Nat) : Nat :=
  if d = 0 then 65 else if d = 1 then 67 else if d = 2 then 71 else 84

/-- The loop of `hash2kmer`: peel `hash & 3` (here `% 4`) and `hash >>= 2`
(here `/ 4`) for `kmer_length` rounds, collecting pushed bytes in order. -/
def hash2kmerAux : Nat → Nat → List Nat
  | _, 0 => []
  | hash, n + 1 => hash2kmerBase (hash % 4) :: hash2kmerAux (hash / 4) n

/-- `hash2kmer` from `kmer_count.rs`: decode a hash into a k-mer byte string;
the pushed bytes are reversed at the end, exactly as in the source. -/
def hash2kmer (kmer_hash kmer_length : Nat) : List Nat :=
  (hash2kmerAux kmer_hash kmer_length).reverse

/-- The loop of `kmer2hash`: `hash_value <<= 2` is `* 4 % 2^64` (the u64 shift
drops overflowing bits), and `|= 1/2/3` is addition because the two low bits
are zero after the shift.  An invalid base is a Rust panic, hence `none`. -/
def kmer2hashGo : Nat → List Nat → Option Nat
  | hash_value, [] => some hash_value
  | hash_value, base :: rest =>
    let shifted := (hash_value * 4) % u64Mod
    if base = 67 then kmer2hashGo (shifted + 1) rest
    else if base = 71 then kmer2hashGo (shifted + 2) rest
    else if base = 84 then kmer2hashGo (shifted + 3) rest
    else if base = 65 then kmer2hashGo shifted rest
    else none

/-- `kmer2hash` from `kmer_count.rs`.  `none` models the panic on a byte
outside A, C, G, T. -/
def kmer2hash (kmer : List Nat) : Option Nat := kmer2hashGo 0 kmer

/-- The per-byte map of `reverse_complement`: `A|a` to `T`, `T|t` to `A`,
`C|c` to `G`, `G|g` to `C`, anything else unchanged. -/
def revcomBase (b : Nat) : Nat :=
  if b = 65 || b = 97 then 84
  else if b = 84 || b = 116 then 65
  else if b = 67 || b = 99 then 71
  else if b = 71 || b = 103 then 67
  else b

/-- `reverse_complement` from `kmer_count.rs`: iterate in reverse, then map the
complement of each byte. -/
def reverse_complement (seq : List Nat) : List Nat := seq.reverse.map revcomBase

/-- The loop of `revcom_hash`: `rc_hash <<= 2` is `* 4 % 2^64`,
`rc_hash |= 3 - (temp_hash & 3)` is addition of `3 - temp_hash % 4`, and
`temp_hash >>= 2` is `/ 4`. -/
def revcom_hashAux : Nat → Nat → Nat → Nat
  | rc_hash, _, 0 => rc_hash
  | rc_hash, temp_hash, n + 1 =>
    revcom_hashAux ((rc_hash * 4) % u64Mod + (3 - temp_hash % 4)) (temp_hash / 4) n

/-- `revcom_hash` from `kmer_count.rs`: hash of the reverse complement,
computed directly on the 2-bit groups. -/
def revcom_hash (kmer_hash kmer_length : Nat) : Nat :=
  revcom_hashAux 0 kmer_hash kmer_length

/-- The `valid_bases` array `[b'A', b'T', b'C', b'G']` of
`count_kmers_in_one_sequence` (also passed to `find_first_valid_kmer`). -/
def valid_bases : List Nat := [65, 84, 67, 71]

/-- The scan of `find_first_valid_kmer` over candidate window starts.  The
Rust slice `&sequence[i..i+kmer_length]` panics when the window end exceeds
the sequence length (reachable when `kmer_length > sequence.len()`), modelled
by the outer `none`; `some none` is a completed scan that found no valid
window; the window hash is read back with `getD 0` (the inner `kmer2hash`
cannot fail on an all-valid window). -/
def find_first_go (sequence : List Nat) (kmer_length : Nat) :
    List Nat → Option (Option (Nat × Nat))
  | [] => some none
  | i :: rest =>
    if i + kmer_length ≤ sequence.length then
      let kmer := (sequence.drop i).take kmer_length
      if kmer.all (fun base => valid_bases.contains base) then
        some (some ((kmer2hash kmer).getD 0, i + kmer_length))
      else find_first_go sequence kmer_length rest
    else none

/-- `find_first_valid_kmer` from `kmer_count.rs`: scan
`start_pos..=sequence_length.saturating_sub(kmer_length)` (a list of
`sequence.length - kmer_length + 1 - start_pos` indices from `start_pos`,
with truncated subtraction matching `saturating_sub`). -/
def find_first_valid_kmer (sequence : List Nat) (kmer_length start_pos : Nat) :
    Option (Option (Nat × Nat)) :=
  find_first_go sequence kmer_length
    (List.range' start_pos (sequence.length - kmer_length + 1 - start_pos))

/-- The `base_to_num` closure of `count_kmers_in_one_sequence`; its wildcard
arm is `unreachable!()` (every caller checks validity first), given the
value 0 here. -/
def base_to_num (b : Nat) : Nat :=
  if b = 65 then 0 else if b = 67 then 1 else if b = 71 then 2
  else if b = 84 then 3 else 0

/-- `*kmer_table.entry(kmer_hash).or_insert(0) += 1` on the association-list
model of the `HashMap`: the count is a `u32`, so the increment wraps modulo
`2^32`; a fresh key starts at `0 + 1 = 1`. -/
def tableIncr : List (Nat × Nat) → Nat → List (Nat × Nat)
  | [], kmer_hash => [(kmer_hash, 1)]
  | (k, c) :: rest, kmer_hash =>
    if k = kmer_hash then (k, (c + 1) % u32Mod) :: rest
    else (k, c) :: tableIncr rest kmer_hash

/-- `*table.entry(kmer_hash).or_insert(0) += count` with a `u32` count taken
from another table (hence already below `2^32` for a fresh key). -/
def tableAddCount : List (Nat × Nat) → Nat → Nat → List (Nat × Nat)
  | [], kmer_hash, count => [(kmer_hash, count)]
  | (k, c) :: rest, kmer_hash, count =>
    if k = kmer_hash then (k, (c + count) % u32Mod) :: rest
    else (k, c) :: tableAddCount rest kmer_hash count

/-- The `while i < sequence_length` loop of `count_kmers_in_one_sequence`.
The last argument is fuel: `i` strictly increases every iteration, so
`sequence.length + 1` units always suffice (`none` on exhaustion is
unreachable from `count_kmers_core`).  The streaming update
`((kmer_hash << 2) & hash_mask) | base_to_num(base)` is modelled with the
u64 wrap on the shift and `Nat` bitwise and/or. -/
def count_kmers_loop (sequence : List Nat) (kmer_length hash_mask : Nat) :
    Nat → Nat → List (Nat × Nat) → Nat → Option (List (Nat × Nat))
  | _, _, _, 0 => none
  | kmer_hash, i, kmer_table, fuel + 1 =>
    if i < sequence.length then
      let base := sequence.getD i 0
      if valid_bases.contains base then
        let nh := Nat.lor (Nat.land ((kmer_hash * 4) % u64Mod) hash_mask) (base_to_num base)
        count_kmers_loop sequence kmer_length hash_mask nh (i + 1)
          (tableIncr kmer_table nh) fuel
      else
        match find_first_valid_kmer sequence kmer_length (i + 1) with
        | none => none
        | some none => some kmer_table
        | some (some (new_hash, new_i)) =>
          count_kmers_loop sequence kmer_length hash_mask new_hash new_i
            (tableIncr kmer_table new_hash) fuel
    else some kmer_table

/-- The rc_table construction of `count_kmers_in_one_sequence`'s
`revcom_mode` block: `*rc_table.entry(revcom_hash(h, L)).or_insert(0) += count`
for every entry of the forward table. -/
def rc_table_of (kmer_table : List (Nat × Nat)) (kmer_length : Nat) :
    List (Nat × Nat) :=
  kmer_table.foldl
    (fun rc_table e => tableAddCount rc_table (revcom_hash e.1 kmer_length) e.2) []

/-- The merge of rc_table back into kmer_table (`revcom_mode` block). -/
def mergeRevcom (kmer_table : List (Nat × Nat)) (kmer_length : Nat) :
    List (Nat × Nat) :=
  (rc_table_of kmer_table kmer_length).foldl
    (fun acc e => tableAddCount acc e.1 e.2) kmer_table

/-- Rust `u8::is_ascii_uppercase`. -/
def is_ascii_uppercase (b : Nat) : Bool := 65 ≤ b && b ≤ 90

/-- The forward pass of `count_kmers_in_one_sequence`: seed with the first
valid window, then stream with the incremental hash update; the
`hash_mask = (1 << (2 * kmer_length)) - 1` shift masks its amount to six bits
as the release-mode u64 shift does. -/
def count_kmers_core (sequence : List Nat) (kmer_length : Nat) :
    Option (List (Nat × Nat)) :=
  let hash_mask := (1 <<< ((2 * kmer_length) % 64)) - 1
  match find_first_valid_kmer sequence kmer_length 0 with
  | none => none
  | some none => some []
  | some (some (kmer_hash, i)) =>
    count_kmers_loop sequence kmer_length hash_mask kmer_hash i
      (tableIncr [] kmer_hash) (sequence.length + 1)

/-- `count_kmers_in_one_sequence` from `kmer_count.rs`: panic (`none`) unless
the whole sequence is ASCII uppercase, run the forward pass, and in
`revcom_mode` merge the reverse-complement table additively into the same
table. -/
def count_kmers_in_one_sequence (sequence : List Nat) (kmer_length : Nat)
    (revcom_mode : Bool) : Option (List (Nat × Nat)) :=
  if !sequence.all (fun b => is_ascii_uppercase b) then none
  else
    (count_kmers_core sequence kmer_length).map
      (fun kmer_table =>
        if revcom_mode then mergeRevcom kmer_table kmer_length else kmer_table)

/-- The per-sequence loop of `count_kmers_in_sequences`, merging each
sequence's table additively into the running table. -/
def count_seqs_go (kmer_length : Nat) (revcom_mode : Bool) :
    List (List Nat) → List (Nat × Nat) → Option (List (Nat × Nat))
  | [], kmer_table => some kmer_table
  | sequence :: rest, kmer_table =>
    match count_kmers_in_one_sequence sequence kmer_length revcom_mode with
    | none => none
    | some sequence_kmer_table =>
      count_seqs_go kmer_length revcom_mode rest
        (sequence_kmer_table.foldl (fun acc e => tableAddCount acc e.1 e.2) kmer_table)

/-- `count_kmers_in_sequences` from `kmer_count.rs`: panics (`none`) when
`kmer_length > 31`, otherwise sums the per-sequence tables. -/
def count_kmers_in_sequences (sequences : List (List Nat)) (kmer_length : Nat)
    (revcom_mode : Bool) : Option (List (Nat × Nat)) :=
  if kmer_length > 31 then none
  else count_seqs_go kmer_length revcom_mode sequences []

/-- `User` from `models/user.rs`; `quota` and `used_quota` are `u64` seconds
(callers keep them below `2^64`). -/
structure User where
  username : String
  password_hash : String
  tasks : List String
  quota : Nat
  used_quota : Nat

/-- `TaskStatus` from `models/task.rs`. -/
inductive TaskStatus
  | Queued
  | Processing
  | Completed
  | Failed
  deriving DecidableEq

/-- `WorkerError` from `errors/worker.rs`; the `Io` and `Redis` payloads
(foreign error types) are dropped. -/
inductive WorkerError
  | Timeout (seconds : Nat)
  | TaskPanic (message : String)
  | FileNotFound (path : String)
  | Processing (message : String)
  | Io
  | Redis
  | InvalidKmer (message : String)
  | QuotaExceeded (user : String)
  deriving DecidableEq

/-- The task result mapping produced by `process_task` (k-mer string to
count). -/
abbrev TaskResult := List (String × Nat)

/-- `get_user_quota` from `worker/worker.rs`.  The store lookup is passed in
as `stored_user`.  `(user.quota - user.used_quota).max(0)` is a `u64`
subtraction: it wraps modulo `2^64` (release profile), and the `.max(0)` is
the identity on an unsigned value. -/
def get_user_quota (username : String) (stored_user : Option User) :
    Except WorkerError Nat :=
  match stored_user with
  | none => Except.error (WorkerError.Processing ("User " ++ username ++ " not found"))
  | some user =>
    let remaining_quota := max ((user.quota + u64Mod - user.used_quota) % u64Mod) 0
    if remaining_quota = 0 then Except.error (WorkerError.QuotaExceeded username)
    else Except.ok remaining_quota

/-- The outcome of the spawned computation inside `process_task_with_timeout`:
the inner `process_task` returned (with its own `WorkerResult`), the spawned
task panicked, or the `tokio::time::timeout` elapsed. -/
inductive ExecOutcome
  | completed (task_result : Except WorkerError TaskResult)
  | panicked (message : String)
  | timedOut

/-- Outcome of `tokio::fs::remove_file` on the input FASTA file. -/
inductive DeleteOutcome
  | ok
  | ioError

/-- File-system side effects recorded by the model. -/
inductive FsAction
  | deleteFile (path : String)
  deriving DecidableEq

/-- `process_task_with_timeout` from `worker/worker.rs`, with the execution
and delete outcomes passed in.  The FASTA file at the task's recorded path is
deleted unconditionally after execution; a delete failure returns
`Err(WorkerError::Io(..))` at once, discarding the execution outcome.
Otherwise a panic becomes `TaskPanic`, a timeout becomes
`Timeout(remaining_quota)`, and a completed run returns its own result. -/
def process_task_with_timeout (fasta_path : String) (remaining_quota : Nat)
    (exec : ExecOutcome) (delete_outcome : DeleteOutcome) :
    List FsAction × Except WorkerError TaskResult :=
  let actions := [FsAction.deleteFile fasta_path]
  match delete_outcome with
  | DeleteOutcome.ioError => (actions, Except.error WorkerError.Io)
  | DeleteOutcome.ok =>
    (actions,
      match exec with
      | ExecOutcome.completed task_result => task_result
      | ExecOutcome.panicked message => Except.error (WorkerError.TaskPanic message)
      | ExecOutcome.timedOut => Except.error (WorkerError.Timeout remaining_quota))

/-- The result handling of `worker_process`: `Ok(result)` is reconciled to
`Completed` with `Some(result)`, any error to `Failed` with `None` (the
arguments passed to `update_task_result_user_quota`). -/
def reconcile_status (process_result : Except WorkerError TaskResult) :
    TaskStatus × Option TaskResult :=
  match process_result with
  | Except.ok result => (TaskStatus.Completed, some result)
  | Except.error _ => (TaskStatus.Failed, none)

/-- One dispatched-task attempt of `worker_process` after the task was popped
and marked `Processing` (store operations abstracted as succeeding): derive
the deadline via `get_user_quota`; on error short-circuit without running the
engine, otherwise run `process_task_with_timeout`.  The boolean records
whether the K-mer engine execution was invoked. -/
def worker_attempt (stored_user : Option User) (username fasta_path : String)
    (exec : ExecOutcome) (delete_outcome : DeleteOutcome) :
    Except WorkerError TaskResult × Bool :=
  match get_user_quota username stored_user with
  | Except.error e => (Except.error e, false)
  | Except.ok remaining_quota =>
    ((process_task_with_timeout fasta_path remaining_quota exec delete_outcome).2, true)

/-- Modelled from the spec: `remainingQuota(user) -> seconds` is
`max(0, quota - used_quota)` (exact integer arithmetic), stated for
comparison with the code's `get_user_quota`. -/
def remainingQuota_spec (quota used_quota : Nat) : Nat :=
  (max 0 ((quota : Int) - (used_quota : Int))).toNat

/-- Pure accumulator value of a k-mer under the 2-bit code, most significant
base first (proof-side mirror of `kmer2hash` without wrapping). -/
def kmerVal (kmer : List Nat) : Nat :=
  kmer.foldl (fun acc b => 4 * acc + base_to_num b) 0

/-- The `n` least-significant base-4 digits of a number, least significant
first (proof infrastructure). -/
def natDigits4 : Nat → Nat → List Nat
  | _, 0 => []
  | h, n + 1 => h % 4 :: natDigits4 (h / 4) n

/-- Value of a least-significant-first base-4 digit list (proof
infrastructure). -/
def val4 : List Nat → Nat
  | [] => 0
  | d :: ds => d + 4 * val4 ds

/-- `revcom_hashAux` without the u64 wrap (proof infrastructure). -/
def revcomPure : Nat → Nat → Nat → Nat
  | rc, _, 0 => rc
  | rc, t, n + 1 => revcomPure (4 * rc + (3 - t % 4)) (t / 4) n

/-- Sum of the counts of a table (proof infrastructure). -/
def tableSum (t : List (Nat × Nat)) : Nat := (t.map Prod.snd).sum

/-- Every count in the table is at least one. -/
def tablePos (t : List (Nat × Nat)) : Prop := ∀ e ∈ t, 1 ≤ e.2

/-- A byte is one of the four uppercase DNA letters. -/
def isACGT (b : Nat) : Prop := b = 65 ∨ b = 67 ∨ b = 71 ∨ b = 84

instance (b : Nat) : Decidable (isACGT b) := by
  unfold isACGT
  infer_instance

/-- C1: the spec's Quota Tracker promises `max(0, quota - used_quota)`, in
particular 0 (not a failure) for a tolerated overshoot `used_quota > quota`.
The code `(user.quota - user.used_quota).max(0)` subtracts two `u64`s, so at
`quota = 10, used_quota = 11` it wraps to `2^64 - 1` remaining seconds (a
debug build would panic) where the spec's formula gives 0: the `.max(0)` is
the identity on an unsigned value and the intended clamping is lost. -/
theorem c1_quota_overshoot_wraps :
    get_user_quota "alice" (some (User.mk "alice" "h" [] 10 11)) =
      Except.ok (u64Mod - 1) ∧
    remainingQuota_spec 10 11 = 0 := by
  exact ⟨rfl, rfl⟩

/-- C4: `count_kmers_in_one_sequence` without reverse-complement mode on
"ATGCAT" with L = 3 yields exactly the table {14 : 1, 57 : 1, 36 : 1, 19 : 1}
(ATG, TGC, GCA, CAT each once), and on "ATGNCAT" the N breaks window
continuity, yielding exactly {14 : 1, 19 : 1} (ATG and CAT only); the tables
are compared as multisets of entries since the `HashMap` is unordered. -/
theorem c4_count_kmers_examples :
    ∃ t1 t2,
      count_kmers_in_one_sequence [65, 84, 71, 67, 65, 84] 3 false = some t1 ∧
      t1.Perm [(14, 1), (57, 1), (36, 1), (19, 1)] ∧
      count_kmers_in_one_sequence [65, 84, 71, 78, 67, 65, 84] 3 false = some t2 ∧
      t2.Perm [(14, 1), (19, 1)] := by
  exact ⟨_, _, rfl, by decide, rfl, by decide⟩

/-- C5 counterexample: a concrete successful computation whose input-file
delete fails is reconciled to `Failed` with no result, not to `Completed`
with its result as the claim states: `process_task_with_timeout` returns
`Err(Io)` before looking at the execution outcome. -/
theorem c5_delete_failure_discards_result :
    reconcile_status
        (process_task_with_timeout "input.fa" 7
          (ExecOutcome.completed (Except.ok [("AAAAAAAA", 5)]))
          DeleteOutcome.ioError).2 =
      (TaskStatus.Failed, none) ∧
    reconcile_status
        (process_task_with_timeout "input.fa" 7
          (ExecOutcome.completed (Except.ok [("AAAAAAAA", 5)]))
          DeleteOutcome.ioError).2 ≠
      (TaskStatus.Completed, some [("AAAAAAAA", 5)]) := by
  exact ⟨rfl, by decide⟩

/-- C5 amended: after execution concludes (success, failure, or timeout),
the worker deletes the input file at the task's recorded path exactly once,
and a delete failure does not block reconciliation — the task is still
finalized — but it fails the attempt: the attempt result is the Io error, so
the task is reconciled to `Failed` with no result even when the computation
itself succeeded. -/
theorem c5_teardown_deletes_and_reconciles (fasta_path : String)
    (remaining_quota : Nat) (exec : ExecOutcome) (delete_outcome : DeleteOutcome) :
    (process_task_with_timeout fasta_path remaining_quota exec delete_outcome).1 =
      [FsAction.deleteFile fasta_path] ∧
    ((reconcile_status
        (process_task_with_timeout fasta_path remaining_quota exec delete_outcome).2).1 =
          TaskStatus.Completed ∨
      (reconcile_status
        (process_task_with_timeout fasta_path remaining_quota exec delete_outcome).2).1 =
          TaskStatus.Failed) ∧
    reconcile_status
        (process_task_with_timeout fasta_path remaining_quota exec
          DeleteOutcome.ioError).2 =
      (TaskStatus.Failed, none) := by
  refine ⟨?_, ?_, rfl⟩
  · cases delete_outcome <;> rfl
  · cases delete_outcome with
    | ioError => exact Or.inr rfl
    | ok =>
      cases exec with
      | completed task_result =>
        cases task_result with
        | ok r => exact Or.inl rfl
        | error e => exact Or.inr rfl
      | panicked m => exact Or.inr rfl
      | timedOut => exact Or.inr rfl

/-- C6: when the owning user's remaining quota computes to zero (the stored
`used_quota` equals `quota`, as with quota = 10, used_quota = 10), the worker
attempt fails with `QuotaExceeded` and is reconciled to `Failed`, and the
K-mer engine is never invoked. -/
theorem c6_zero_quota_fails_without_engine (user : User)
    (username fasta_path : String) (exec : ExecOutcome)
    (delete_outcome : DeleteOutcome) (hq : user.used_quota = user.quota) :
    worker_attempt (some user) username fasta_path exec delete_outcome =
      (Except.error (WorkerError.QuotaExceeded username), false) ∧
    reconcile_status
        (worker_attempt (some user) username fasta_path exec delete_outcome).1 =
      (TaskStatus.Failed, none) := by
  have h0 : (user.quota + u64Mod - user.used_quota) % u64Mod = 0 := by
    rw [hq, Nat.add_sub_cancel_left, Nat.mod_self]
  constructor
  · simp [worker_attempt, get_user_quota, h0]
  · simp [worker_attempt, get_user_quota, h0, reconcile_status]

/-- C6 witness: the quota = 10, used_quota = 10 user from the spec's test. -/
theorem c6_zero_quota_fails_without_engine_witness :
    (User.mk "bob" "pw" [] 10 10).used_quota = (User.mk "bob" "pw" [] 10 10).quota ∧
    worker_attempt (some (User.mk "bob" "pw" [] 10 10)) "bob" "in.fa"
        ExecOutcome.timedOut DeleteOutcome.ok =
      (Except.error (WorkerError.QuotaExceeded "bob"), false) :=
  ⟨rfl,
    (c6_zero_quota_fails_without_engine (User.mk "bob" "pw" [] 10 10) "bob" "in.fa"
      ExecOutcome.timedOut DeleteOutcome.ok rfl).1⟩

/-- C7 counterexample: the engine does not reject k-mer length 0 (the only
`usize` value with L ≤ 0): `count_kmers_in_sequences` on the single sequence
"A" with L = 0 returns the count table {0 : 2} instead of failing. -/
theorem c7_kmer_length_zero_not_rejected :
    count_kmers_in_sequences [[65]] 0 false = some [(0, 2)] := rfl

/-- C7 amended: `count_kmers_in_sequences` fails (panics) for every
`kmer_length > 31`; but no L ≤ 0 contract violation is enforced — length 0
requests return a count table (see the counterexample). -/
theorem c7_length_over_31_fails (sequences : List (List Nat))
    (revcom_mode : Bool) (kmer_length : Nat) (h : 31 < kmer_length) :
    count_kmers_in_sequences sequences kmer_length revcom_mode = none := by
  simp [count_kmers_in_sequences, h]

/-- C7 witness: L = 33 (the spec's own test value) fails. -/
theorem c7_length_over_31_fails_witness :
    (31 : Nat) < 33 ∧ count_kmers_in_sequences [[84, 65]] 33 true = none :=
  ⟨by decide, c7_length_over_31_fails [[84, 65]] true 33 (by decide)⟩

theorem base_to_num_le (b : Nat) : base_to_num b ≤ 3 := by
  unfold base_to_num
  split_ifs <;> omega

theorem hash2kmerBase_isACGT (d : Nat) : isACGT (hash2kmerBase d) := by
  unfold hash2kmerBase isACGT
  split_ifs <;> simp

/-- Reverse-complementing a decoded hash is complementing its byte list in
least-significant-first order. -/
theorem reverse_complement_hash2kmer (kmer_hash kmer_length : Nat) :
    reverse_complement (hash2kmer kmer_hash kmer_length) =
      (hash2kmerAux kmer_hash kmer_length).map revcomBase := by
  simp [reverse_complement, hash2kmer]

/-- Hashing the complement of the decoded digits is exactly the
`revcom_hash` accumulator loop, for every accumulator. -/
theorem kmer2hashGo_revcom (n : Nat) :
    ∀ h acc, kmer2hashGo acc ((hash2kmerAux h n).map revcomBase) =
      some (revcom_hashAux acc h n) := by
  induction n with
  | zero => intro h acc; rfl
  | succ n ih =>
    intro h acc
    have h4 : h % 4 = 0 ∨ h % 4 = 1 ∨ h % 4 = 2 ∨ h % 4 = 3 := by omega
    rcases h4 with h4 | h4 | h4 | h4 <;>
      simp [hash2kmerAux, hash2kmerBase, revcomBase, kmer2hashGo, revcom_hashAux,
        h4, ih]

/-- C2: for every k-mer length 1..31 and every hash below `4^L`,
`revcom_hash` agrees with hashing the literal reverse complement of the
decoded k-mer: `revcom_hash(h, L) = kmer2hash(reverse_complement(hash2kmer(h,
L)))` (the hash side is `some` since the decoded bytes are all valid). -/
theorem c2_revcom_hash_matches_literal (kmer_length kmer_hash : Nat)
    (hL1 : 1 ≤ kmer_length) (hL31 : kmer_length ≤ 31)
    (hh : kmer_hash < 4 ^ kmer_length) :
    kmer2hash (reverse_complement (hash2kmer kmer_hash kmer_length)) =
      some (revcom_hash kmer_hash kmer_length) := by
  rw [reverse_complement_hash2kmer]
  exact kmer2hashGo_revcom kmer_length kmer_hash 0

/-- C2 witness: L = 3, h = 14 (ATG); its reverse complement CAT hashes to
`revcom_hash 14 3 = 19`. -/
theorem c2_revcom_hash_matches_literal_witness :
    (1 ≤ 3 ∧ 3 ≤ 31 ∧ 14 < 4 ^ 3) ∧
    kmer2hash (reverse_complement (hash2kmer 14 3)) = some (revcom_hash 14 3) :=
  ⟨by decide, c2_revcom_hash_matches_literal 3 14 (by decide) (by decide) (by decide)⟩

theorem hash2kmerAux_length (n : Nat) : ∀ h, (hash2kmerAux h n).length = n := by
  induction n with
  | zero => intro h; rfl
  | succ n ih => intro h; simp [hash2kmerAux, ih]

theorem hash2kmerAux_mem (n : Nat) :
    ∀ h b, b ∈ hash2kmerAux h n → isACGT b := by
  induction n with
  | zero => intro h b hb; simp [hash2kmerAux] at hb
  | succ n ih =>
    intro h b hb
    simp only [hash2kmerAux, List.mem_cons] at hb
    rcases hb with hb | hb
    · exact hb ▸ hash2kmerBase_isACGT (h % 4)
    · exact ih (h / 4) b hb

theorem hash2kmerAux_mod (n : Nat) :
    ∀ h, hash2kmerAux (h % 4 ^ n) n = hash2kmerAux h n := by
  induction n with
  | zero => intro h; rfl
  | succ n ih =>
    intro h
    have hd : (4 : Nat) ∣ 4 ^ (n + 1) := dvd_pow_self 4 (Nat.succ_ne_zero n)
    have h1 : h % 4 ^ (n + 1) % 4 = h % 4 := Nat.mod_mod_of_dvd h hd
    have h2 : h % 4 ^ (n + 1) / 4 = h / 4 % 4 ^ n := by
      rw [pow_succ', Nat.mod_mul_right_div_self]
    simp [hash2kmerAux, h1, h2, ih]

/-- C9: `hash2kmer` is total and shape-preserving: for every hash and length
it returns exactly `kmer_length` bytes, each one of A, C, G, T, and the
output depends only on the hash's low `2 * kmer_length` bits. -/
theorem c9_hash2kmer_total_shape (kmer_hash kmer_length : Nat) :
    (hash2kmer kmer_hash kmer_length).length = kmer_length ∧
    (∀ b ∈ hash2kmer kmer_hash kmer_length, isACGT b) ∧
    hash2kmer kmer_hash kmer_length =
      hash2kmer (kmer_hash % 4 ^ kmer_length) kmer_length := by
  refine ⟨?_, ?_, ?_⟩
  · simp [hash2kmer, hash2kmerAux_length]
  · intro b hb
    rw [hash2kmer, List.mem_reverse] at hb
    exact hash2kmerAux_mem kmer_length kmer_hash b hb
  · rw [hash2kmer, hash2kmer, hash2kmerAux_mod]

theorem kmerVal_foldl_ge (xs : List Nat) :
    ∀ acc, acc ≤ xs.foldl (fun a b => 4 * a + base_to_num b) acc := by
  induction xs with
  | nil => intro acc; exact Nat.le_refl acc
  | cons b xs ih =>
    intro acc
    calc acc ≤ 4 * acc + base_to_num b := by omega
      _ ≤ xs.foldl (fun a b => 4 * a + base_to_num b) (4 * acc + base_to_num b) :=
        ih (4 * acc + base_to_num b)
      _ = (b :: xs).foldl (fun a b => 4 * a + base_to_num b) acc := rfl

theorem kmerVal_foldl_lt (xs : List Nat) :
    ∀ acc, xs.foldl (fun a b => 4 * a + base_to_num b) acc <
      4 ^ xs.length * (acc + 1) := by
  induction xs with
  | nil => intro acc; simp
  | cons b xs ih =>
    intro acc
    have hc : base_to_num b ≤ 3 := base_to_num_le b
    calc (b :: xs).foldl (fun a b => 4 * a + base_to_num b) acc
        = xs.foldl (fun a b => 4 * a + base_to_num b) (4 * acc + base_to_num b) := rfl
      _ < 4 ^ xs.length * (4 * acc + base_to_num b + 1) := ih _
      _ ≤ 4 ^ xs.length * (4 * (acc + 1)) := by
          exact Nat.mul_le_mul_left (4 ^ xs.length) (by omega)
      _ = 4 ^ (b :: xs).length * (acc + 1) := by
          simp [List.length_cons, pow_succ]; ring

/-- When every byte is A, C, G or T and the exact accumulator value stays
below `2^64`, `kmer2hashGo` returns that exact value (the shift never
drops bits). -/
theorem kmer2hashGo_exact (xs : List Nat) :
    ∀ acc, (∀ b ∈ xs, isACGT b) →
      xs.foldl (fun a b => 4 * a + base_to_num b) acc < u64Mod →
      kmer2hashGo acc xs =
        some (xs.foldl (fun a b => 4 * a + base_to_num b) acc) := by
  induction xs with
  | nil => intro acc _ _; rfl
  | cons b xs ih =>
    intro acc hvalid hlt
    have hb : isACGT b := hvalid b (List.mem_cons_self b xs)
    have hstep : (b :: xs).foldl (fun a b => 4 * a + base_to_num b) acc =
        xs.foldl (fun a b => 4 * a + base_to_num b) (4 * acc + base_to_num b) := rfl
    have hge : 4 * acc + base_to_num b ≤
        xs.foldl (fun a b => 4 * a + base_to_num b) (4 * acc + base_to_num b) :=
      kmerVal_foldl_ge xs (4 * acc + base_to_num b)
    have hshift : (acc * 4) % u64Mod = acc * 4 := by
      apply Nat.mod_eq_of_lt
      rw [hstep] at hlt
      omega
    have hrest : ∀ b2 ∈ xs, isACGT b2 :=
      fun b2 hb2 => hvalid b2 (List.mem_cons_of_mem b hb2)
    have hlt2 : xs.foldl (fun a b => 4 * a + base_to_num b)
        (4 * acc + base_to_num b) < u64Mod := by
      rw [hstep] at hlt; exact hlt
    rcases hb with h | h | h | h <;> subst h
    · have e1 : kmer2hashGo acc (65 :: xs) = kmer2hashGo (acc * 4 % u64Mod) xs := by
        simp [kmer2hashGo]
      have hacc : acc * 4 = 4 * acc + base_to_num 65 := by
        norm_num [base_to_num, Nat.mul_comm]
      rw [e1, hshift, hacc, ih _ hrest hlt2, hstep]
    · have e1 : kmer2hashGo acc (67 :: xs) =
          kmer2hashGo (acc * 4 % u64Mod + 1) xs := by
        simp [kmer2hashGo]
      have hacc : acc * 4 + 1 = 4 * acc + base_to_num 67 := by
        norm_num [base_to_num, Nat.mul_comm]
      rw [e1, hshift, hacc, ih _ hrest hlt2, hstep]
    · have e1 : kmer2hashGo acc (71 :: xs) =
          kmer2hashGo (acc * 4 % u64Mod + 2) xs := by
        simp [kmer2hashGo]
      have hacc : acc * 4 + 2 = 4 * acc + base_to_num 71 := by
        norm_num [base_to_num, Nat.mul_comm]
      rw [e1, hshift, hacc, ih _ hrest hlt2, hstep]
    · have e1 : kmer2hashGo acc (84 :: xs) =
          kmer2hashGo (acc * 4 % u64Mod + 3) xs := by
        simp [kmer2hashGo]
      have hacc : acc * 4 + 3 = 4 * acc + base_to_num 84 := by
        norm_num [base_to_num, Nat.mul_comm]
      rw [e1, hshift, hacc, ih _ hrest hlt2, hstep]

/-- On a valid k-mer of length at most 31 `kmer2hash` succeeds with the
exact 2-bit accumulator value. -/
theorem kmer2hash_eq_kmerVal (xs : List Nat) (hvalid : ∀ b ∈ xs, isACGT b)
    (h31 : xs.length ≤ 31) : kmer2hash xs = some (kmerVal xs) := by
  apply kmer2hashGo_exact xs 0 hvalid
  have h1 : xs.foldl (fun a b => 4 * a + base_to_num b) 0 < 4 ^ xs.length * 1 :=
    kmerVal_foldl_lt xs 0
  have h2 : (4 : Nat) ^ xs.length ≤ 4 ^ 31 :=
    Nat.pow_le_pow_right (by norm_num) h31
  have h3 : (4 : Nat) ^ 31 < u64Mod := by norm_num [u64Mod]
  omega

theorem hash2kmerAux_concat (ys : List Nat) (b : Nat) (hb : isACGT b) :
    hash2kmerAux (kmerVal (ys ++ [b])) (ys.length + 1) =
      b :: hash2kmerAux (kmerVal ys) ys.length := by
  have hval : kmerVal (ys ++ [b]) = 4 * kmerVal ys + base_to_num b := by
    simp [kmerVal, List.foldl_append]
  have hc : base_to_num b ≤ 3 := base_to_num_le b
  have h1 : (4 * kmerVal ys + base_to_num b) % 4 = base_to_num b := by omega
  have h2 : (4 * kmerVal ys + base_to_num b) / 4 = kmerVal ys := by omega
  rw [hval]
  simp only [hash2kmerAux, h1, h2]
  congr 1
  rcases hb with h | h | h | h <;> subst h <;> rfl

/-- Decoding the exact accumulator value of a valid k-mer recovers it. -/
theorem hash2kmer_kmerVal (xs : List Nat) (hvalid : ∀ b ∈ xs, isACGT b) :
    hash2kmer (kmerVal xs) xs.length = xs := by
  induction xs using List.reverseRecOn with
  | nil => rfl
  | append_singleton ys b ih =>
    have hb : isACGT b := hvalid b (by simp)
    have hys : ∀ b2 ∈ ys, isACGT b2 := fun b2 hb2 => hvalid b2 (by simp [hb2])
    have hlen : (ys ++ [b]).length = ys.length + 1 := by simp
    rw [hash2kmer, hlen, hash2kmerAux_concat ys b hb]
    simp only [List.reverse_cons]
    rw [← hash2kmer, ih hys]

/-- C3: for every sequence over {A, C, G, T} of length 1 to 31, decoding the
hash recovers the sequence: `hash2kmer(kmer2hash(x), length(x)) = x`. -/
theorem c3_hash_roundtrip (x : List Nat) (hvalid : ∀ b ∈ x, isACGT b)
    (hlen1 : 1 ≤ x.length) (hlen31 : x.length ≤ 31) :
    ∃ h, kmer2hash x = some h ∧ hash2kmer h x.length = x :=
  ⟨kmerVal x, kmer2hash_eq_kmerVal x hvalid hlen31, hash2kmer_kmerVal x hvalid⟩

/-- C3 witness: x = "ATG". -/
theorem c3_hash_roundtrip_witness :
    ((∀ b ∈ [65, 84, 71], isACGT b) ∧ 1 ≤ 3 ∧ 3 ≤ 31) ∧
    ∃ h, kmer2hash [65, 84, 71] = some h ∧ hash2kmer h 3 = [65, 84, 71] :=
  ⟨⟨by decide, by decide, by decide⟩,
    c3_hash_roundtrip [65, 84, 71] (by decide) (by decide) (by decide)⟩

/-- When `4^n * (rc + 1)` fits in the u64 range, `revcom_hashAux` never
wraps and agrees with its exact counterpart. -/
theorem revcom_hashAux_eq_pure (n : Nat) :
    ∀ rc t, 4 ^ n * (rc + 1) ≤ u64Mod →
      revcom_hashAux rc t n = revcomPure rc t n := by
  induction n with
  | zero => intro rc t _; rfl
  | succ n ih =>
    intro rc t hb
    have h41 : (4 : Nat) ≤ 4 ^ (n + 1) := by
      calc (4 : Nat) = 4 ^ 1 := by norm_num
        _ ≤ 4 ^ (n + 1) := Nat.pow_le_pow_right (by norm_num) (by omega)
    have hle : 4 ^ n * ((4 * rc + (3 - t % 4)) + 1) ≤ u64Mod := by
      calc 4 ^ n * ((4 * rc + (3 - t % 4)) + 1)
          ≤ 4 ^ n * (4 * (rc + 1)) := Nat.mul_le_mul_left (4 ^ n) (by omega)
        _ = 4 ^ (n + 1) * (rc + 1) := by rw [pow_succ]; ring
        _ ≤ u64Mod := hb
    have hwrap : (rc * 4) % u64Mod = rc * 4 := by
      apply Nat.mod_eq_of_lt
      have h1 : 4 * (rc + 1) ≤ 4 ^ (n + 1) * (rc + 1) :=
        Nat.mul_le_mul_right (rc + 1) h41
      omega
    simp only [revcom_hashAux, revcomPure, hwrap]
    rw [show rc * 4 = 4 * rc from Nat.mul_comm rc 4]
    exact ih _ _ hle

theorem revcomPure_foldl (n : Nat) :
    ∀ rc t, revcomPure rc t n =
      (natDigits4 t n).foldl (fun a d => 4 * a + (3 - d)) rc := by
  induction n with
  | zero => intro rc t; rfl
  | succ n ih => intro rc t; simp only [revcomPure, natDigits4, List.foldl_cons, ih]

theorem val4_append (xs : List Nat) (e : Nat) :
    val4 (xs ++ [e]) = val4 xs + e * 4 ^ xs.length := by
  induction xs with
  | nil => simp [val4]
  | cons d ds ih =>
    show val4 (d :: (ds ++ [e])) = val4 (d :: ds) + e * 4 ^ (d :: ds).length
    simp only [val4]
    rw [ih, List.length_cons, pow_succ]
    ring

theorem foldl_comp_val4 (ds : List Nat) :
    ∀ rc, ds.foldl (fun a d => 4 * a + (3 - d)) rc =
      val4 ((ds.map (fun d => 3 - d)).reverse) + rc * 4 ^ ds.length := by
  induction ds with
  | nil => intro rc; simp [val4]
  | cons d ds ih =>
    intro rc
    simp only [List.foldl_cons, List.map_cons, List.reverse_cons, List.length_cons]
    rw [ih (4 * rc + (3 - d)), val4_append]
    have hlen : ((ds.map (fun d => 3 - d)).reverse).length = ds.length := by simp
    rw [hlen, pow_succ]
    ring

theorem val4_natDigits4 (n : Nat) :
    ∀ h, h < 4 ^ n → val4 (natDigits4 h n) = h := by
  induction n with
  | zero => intro h hh; interval_cases h; rfl
  | succ n ih =>
    intro h hh
    have hdiv : h / 4 < 4 ^ n := by
      rw [Nat.div_lt_iff_lt_mul (by norm_num)]
      calc h < 4 ^ (n + 1) := hh
        _ = 4 ^ n * 4 := pow_succ 4 n
    simp only [natDigits4, val4, ih (h / 4) hdiv]
    omega

theorem natDigits4_lt (n : Nat) :
    ∀ h d, d ∈ natDigits4 h n → d < 4 := by
  induction n with
  | zero => intro h d hd; simp [natDigits4] at hd
  | succ n ih =>
    intro h d hd
    simp only [natDigits4, List.mem_cons] at hd
    rcases hd with hd | hd
    · omega
    · exact ih (h / 4) d hd

theorem natDigits4_length (n : Nat) : ∀ h, (natDigits4 h n).length = n := by
  induction n with
  | zero => intro h; rfl
  | succ n ih => intro h; simp [natDigits4, ih]

theorem natDigits4_val4 (ds : List Nat) (hds : ∀ d ∈ ds, d < 4) :
    natDigits4 (val4 ds) ds.length = ds := by
  induction ds with
  | nil => rfl
  | cons d ds ih =>
    have hd : d < 4 := hds d (List.mem_cons_self d ds)
    have hrest : ∀ d2 ∈ ds, d2 < 4 := fun d2 h2 => hds d2 (List.mem_cons_of_mem d h2)
    have h1 : (d + 4 * val4 ds) % 4 = d := by omega
    have h2 : (d + 4 * val4 ds) / 4 = val4 ds := by omega
    simp only [val4, List.length_cons, natDigits4, h1, h2, ih hrest]

theorem val4_lt (ds : List Nat) (hds : ∀ d ∈ ds, d < 4) :
    val4 ds < 4 ^ ds.length := by
  induction ds with
  | nil => simp [val4]
  | cons d ds ih =>
    have hd : d < 4 := hds d (List.mem_cons_self d ds)
    have hrest : ∀ d2 ∈ ds, d2 < 4 := fun d2 h2 => hds d2 (List.mem_cons_of_mem d h2)
    have hv : val4 ds < 4 ^ ds.length := ih hrest
    simp only [val4, List.length_cons, pow_succ]
    omega

/-- For lengths up to 31 `revcom_hash` is the value of the reversed,
complemented digit list of its argument. -/
theorem revcom_hash_digits (kmer_length kmer_hash : Nat) (h31 : kmer_length ≤ 31) :
    revcom_hash kmer_hash kmer_length =
      val4 (((natDigits4 kmer_hash kmer_length).map (fun d => 3 - d)).reverse) := by
  have hfit : 4 ^ kmer_length * (0 + 1) ≤ u64Mod := by
    have h2 : (4 : Nat) ^ kmer_length ≤ 4 ^ 31 :=
      Nat.pow_le_pow_right (by norm_num) h31
    have h3 : (4 : Nat) ^ 31 ≤ u64Mod := by norm_num [u64Mod]
    omega
  rw [revcom_hash, revcom_hashAux_eq_pure kmer_length 0 kmer_hash hfit,
    revcomPure_foldl, foldl_comp_val4]
  simp

/-- C8: `revcom_hash` is an involution on the valid hash domain: for every
length 1..31 and every hash below `4^L`, applying it twice gives back the
original hash. -/
theorem c8_revcom_hash_involution (kmer_length kmer_hash : Nat)
    (hL1 : 1 ≤ kmer_length) (hL31 : kmer_length ≤ 31)
    (hh : kmer_hash < 4 ^ kmer_length) :
    revcom_hash (revcom_hash kmer_hash kmer_length) kmer_length = kmer_hash := by
  set ds := natDigits4 kmer_hash kmer_length with hds
  have hdlt : ∀ d ∈ ds, d < 4 :=
    fun d hd => natDigits4_lt kmer_length kmer_hash d hd
  have hlen : ds.length = kmer_length := natDigits4_length kmer_length kmer_hash
  set es := (ds.map (fun d => 3 - d)).reverse with hes
  have heslen : es.length = kmer_length := by simp [hes, hlen]
  have heslt : ∀ d ∈ es, d < 4 := by
    intro d hd
    rw [hes, List.mem_reverse, List.mem_map] at hd
    obtain ⟨a, _, ha⟩ := hd
    omega
  have h1 : revcom_hash kmer_hash kmer_length = val4 es :=
    revcom_hash_digits kmer_length kmer_hash hL31
  have hdig : natDigits4 (val4 es) kmer_length = es := by
    rw [← heslen]
    exact natDigits4_val4 es heslt
  have h2 : revcom_hash (val4 es) kmer_length =
      val4 ((es.map (fun d => 3 - d)).reverse) := by
    rw [revcom_hash_digits kmer_length (val4 es) hL31, hdig]
  have h3 : (es.map (fun d => 3 - d)).reverse = ds := by
    rw [hes, List.map_reverse, List.reverse_reverse, List.map_map]
    have hcc : ∀ d ∈ ds, ((fun d => 3 - d) ∘ fun d => 3 - d) d = id d := by
      intro d hd
      have := hdlt d hd
      simp only [Function.comp_apply, id_eq]
      omega
    rw [List.map_congr_left hcc, List.map_id]
  rw [h1, h2, h3]
  exact val4_natDigits4 kmer_length kmer_hash hh

/-- C8 witness: L = 3, h = 19 (CAT); double reverse complement is the
identity on it. -/
theorem c8_revcom_hash_involution_witness :
    (1 ≤ 3 ∧ 3 ≤ 31 ∧ 19 < 4 ^ 3) ∧ revcom_hash (revcom_hash 19 3) 3 = 19 :=
  ⟨by decide,
    c8_revcom_hash_involution 3 19 (by decide) (by decide) (by decide)⟩

theorem tableSum_entry_cons (e : Nat × Nat) (rest : List (Nat × Nat)) :
    tableSum (e :: rest) = e.2 + tableSum rest := by
  simp [tableSum]

theorem tablePos_cons (e : Nat × Nat) (rest : List (Nat × Nat)) :
    tablePos (e :: rest) ↔ 1 ≤ e.2 ∧ tablePos rest := by
  unfold tablePos
  exact List.forall_mem_cons

/-- An exact increment: while the running total stays below `2^32`, the u32
increment does not wrap, keeps every count positive, and raises the total by
one. -/
theorem tableIncr_pos (t : List (Nat × Nat)) (k : Nat) (hpos : tablePos t)
    (hsum : tableSum t + 1 < u32Mod) :
    tablePos (tableIncr t k) ∧ tableSum (tableIncr t k) = tableSum t + 1 := by
  induction t with
  | nil =>
    constructor
    · intro e he
      simp only [tableIncr, List.mem_singleton] at he
      simp [he]
    · simp [tableIncr, tableSum]
  | cons hd rest ih =>
    obtain ⟨k2, c⟩ := hd
    rw [tablePos_cons] at hpos
    rw [tableSum_entry_cons] at hsum
    by_cases hk : k2 = k
    · have hc1 : (c + 1) % u32Mod = c + 1 := Nat.mod_eq_of_lt (by omega)
      constructor
      · intro e he
        simp only [tableIncr] at he
        rw [if_pos hk, List.mem_cons] at he
        rcases he with he | he
        · simp [he, hc1]
        · exact hpos.2 e he
      · simp [tableIncr, hk, tableSum_entry_cons, hc1]
        omega
    · obtain ⟨ihpos, ihsum⟩ := ih hpos.2 (by omega)
      constructor
      · intro e he
        simp only [tableIncr] at he
        rw [if_neg hk, List.mem_cons] at he
        rcases he with he | he
        · simp [he]; exact hpos.1
        · exact ihpos e he
      · simp [tableIncr, hk, tableSum_entry_cons, ihsum]
        omega

/-- An exact add: while the running total stays below `2^32`, adding a
positive u32 count does not wrap, keeps every count positive, and raises the
total by that count. -/
theorem tableAddCount_pos (t : List (Nat × Nat)) (k c : Nat) (hpos : tablePos t)
    (hc : 1 ≤ c) (hsum : tableSum t + c < u32Mod) :
    tablePos (tableAddCount t k c) ∧
    tableSum (tableAddCount t k c) = tableSum t + c := by
  induction t with
  | nil =>
    constructor
    · intro e he
      simp only [tableAddCount, List.mem_singleton] at he
      simp [he]
      omega
    · simp [tableAddCount, tableSum]
  | cons hd rest ih =>
    obtain ⟨k2, c2⟩ := hd
    rw [tablePos_cons] at hpos
    rw [tableSum_entry_cons] at hsum
    by_cases hk : k2 = k
    · have hc1 : (c2 + c) % u32Mod = c2 + c := Nat.mod_eq_of_lt (by omega)
      constructor
      · intro e he
        simp only [tableAddCount] at he
        rw [if_pos hk, List.mem_cons] at he
        rcases he with he | he
        · simp [he, hc1]; omega
        · exact hpos.2 e he
      · simp [tableAddCount, hk, tableSum_entry_cons, hc1]
        omega
    · obtain ⟨ihpos, ihsum⟩ := ih hpos.2 (by omega)
      constructor
      · intro e he
        simp only [tableAddCount] at he
        rw [if_neg hk, List.mem_cons] at he
        rcases he with he | he
        · simp [he]; exact hpos.1
        · exact ihpos e he
      · simp [tableAddCount, hk, tableSum_entry_cons, ihsum]
        omega

/-- A successful scan returns the end position of one of the scanned
candidate windows. -/
theorem find_first_go_mem (sequence : List Nat) (kmer_length : Nat)
    (is : List Nat) :
    ∀ h e, find_first_go sequence kmer_length is = some (some (h, e)) →
      ∃ j ∈ is, e = j + kmer_length := by
  induction is with
  | nil => intro h e hfind; simp [find_first_go] at hfind
  | cons i rest ih =>
    intro h e hfind
    simp only [find_first_go] at hfind
    by_cases hle : i + kmer_length ≤ sequence.length
    · rw [if_pos hle] at hfind
      by_cases hall : ((sequence.drop i).take kmer_length).all
          (fun base => valid_bases.contains base) = true
      · rw [if_pos hall] at hfind
        simp only [Option.some.injEq, Prod.mk.injEq] at hfind
        exact ⟨i, List.mem_cons_self i rest, hfind.2.symm⟩
      · rw [if_neg hall] at hfind
        obtain ⟨j, hj, hje⟩ := ih h e hfind
        exact ⟨j, List.mem_cons_of_mem i hj, hje⟩
    · rw [if_neg hle] at hfind
      exact absurd hfind (by simp)

/-- A successful `find_first_valid_kmer` returns an end position at or after
the scan start. -/
theorem find_first_valid_kmer_ge (sequence : List Nat)
    (kmer_length start_pos h e : Nat)
    (hfind : find_first_valid_kmer sequence kmer_length start_pos =
      some (some (h, e))) : start_pos ≤ e := by
  obtain ⟨j, hj, hje⟩ := find_first_go_mem sequence kmer_length _ h e hfind
  have hmem := List.mem_range'_1.mp hj
  omega

/-- Loop invariant for the streaming pass: starting from a positive table
whose total plus the remaining iteration budget stays below `2^32`, the loop
returns a positive table whose total grew by at most the number of remaining
positions. -/
theorem count_kmers_loop_pos (sequence : List Nat) (kmer_length hash_mask : Nat) :
    ∀ fuel kmer_hash i kmer_table,
      tablePos kmer_table →
      tableSum kmer_table + (sequence.length - i) < u32Mod →
      ∀ t, count_kmers_loop sequence kmer_length hash_mask kmer_hash i
        kmer_table fuel = some t →
      tablePos t ∧
        tableSum t ≤ tableSum kmer_table + (sequence.length - i) := by
  intro fuel
  induction fuel with
  | zero =>
    intro kmer_hash i kmer_table _ _ t hsome
    simp [count_kmers_loop] at hsome
  | succ fuel ih =>
    intro kmer_hash i kmer_table hpos hsum t hsome
    simp only [count_kmers_loop] at hsome
    by_cases hi : i < sequence.length
    · rw [if_pos hi] at hsome
      by_cases hv : valid_bases.contains (sequence.getD i 0) = true
      · rw [if_pos hv] at hsome
        obtain ⟨hpos2, hsum2⟩ := tableIncr_pos kmer_table
          (Nat.lor (Nat.land ((kmer_hash * 4) % u64Mod) hash_mask)
            (base_to_num (sequence.getD i 0)))
          hpos (by omega)
        obtain ⟨hpt, hst⟩ := ih _ (i + 1) _ hpos2 (by rw [hsum2]; omega) t hsome
        refine ⟨hpt, ?_⟩
        rw [hsum2] at hst
        omega
      · rw [if_neg hv] at hsome
        cases hfind : find_first_valid_kmer sequence kmer_length (i + 1) with
        | none => rw [hfind] at hsome; exact absurd hsome (by simp)
        | some o =>
          rw [hfind] at hsome
          cases o with
          | none =>
            simp only [Option.some.injEq] at hsome
            subst hsome
            exact ⟨hpos, by omega⟩
          | some pair =>
            obtain ⟨new_hash, new_i⟩ := pair
            have hge : i + 1 ≤ new_i :=
              find_first_valid_kmer_ge sequence kmer_length (i + 1) new_hash
                new_i hfind
            obtain ⟨hpos2, hsum2⟩ := tableIncr_pos kmer_table new_hash hpos
              (by omega)
            obtain ⟨hpt, hst⟩ := ih _ new_i _ hpos2 (by rw [hsum2]; omega) t
              hsome
            refine ⟨hpt, ?_⟩
            rw [hsum2] at hst
            omega
    · rw [if_neg hi] at hsome
      simp only [Option.some.injEq] at hsome
      subst hsome
      exact ⟨hpos, by omega⟩

/-- Folding a positive table's entries into an accumulator table with
`tableAddCount` (at keys transformed by `f`) is exact and positivity
preserving while the combined total stays below `2^32`. -/
theorem foldl_tableAddCount_pos (f : Nat → Nat) (es : List (Nat × Nat)) :
    ∀ acc, tablePos es → tablePos acc →
      tableSum acc + tableSum es < u32Mod →
      tablePos (es.foldl (fun a e => tableAddCount a (f e.1) e.2) acc) ∧
      tableSum (es.foldl (fun a e => tableAddCount a (f e.1) e.2) acc) =
        tableSum acc + tableSum es := by
  induction es with
  | nil =>
    intro acc _ hacc _
    simp only [List.foldl_nil]
    exact ⟨hacc, by simp [tableSum]⟩
  | cons e rest ih =>
    intro acc hes hacc hsum
    rw [tablePos_cons] at hes
    rw [tableSum_entry_cons] at hsum
    obtain ⟨hp, hs⟩ := tableAddCount_pos acc (f e.1) e.2 hacc hes.1 (by omega)
    obtain ⟨hp2, hs2⟩ := ih (tableAddCount acc (f e.1) e.2) hes.2 hp
      (by rw [hs]; omega)
    simp only [List.foldl_cons]
    refine ⟨hp2, ?_⟩
    rw [hs2, hs, tableSum_entry_cons]
    omega

/-- The reverse-complement merge doubles the total and keeps every count
positive while twice the total stays below `2^32`. -/
theorem mergeRevcom_pos (kmer_table : List (Nat × Nat)) (kmer_length : Nat)
    (hpos : tablePos kmer_table)
    (hsum : 2 * tableSum kmer_table < u32Mod) :
    tablePos (mergeRevcom kmer_table kmer_length) ∧
    tableSum (mergeRevcom kmer_table kmer_length) =
      2 * tableSum kmer_table := by
  have h0 : tableSum ([] : List (Nat × Nat)) = 0 := rfl
  have hrc := foldl_tableAddCount_pos (fun k => revcom_hash k kmer_length)
    kmer_table [] hpos (fun e he => absurd he (by simp))
    (by rw [h0]; omega)
  have hrcP : tablePos (rc_table_of kmer_table kmer_length) := hrc.1
  have hrcS : tableSum (rc_table_of kmer_table kmer_length) =
      tableSum kmer_table := by
    have h2 := hrc.2
    rw [h0, Nat.zero_add] at h2
    exact h2
  have hmerge := foldl_tableAddCount_pos (fun k => k)
    (rc_table_of kmer_table kmer_length) kmer_table hrcP hpos
    (by rw [hrcS]; omega)
  have hmP : tablePos (mergeRevcom kmer_table kmer_length) := hmerge.1
  have hmS : tableSum (mergeRevcom kmer_table kmer_length) =
      tableSum kmer_table + tableSum (rc_table_of kmer_table kmer_length) :=
    hmerge.2
  exact ⟨hmP, by rw [hmS, hrcS]; omega⟩

/-- Positivity and total bound for one sequence: while `2 * (length + 1)`
stays below `2^32` no count wraps, so every returned count is at least one
and the total is at most `2 * (length + 1)`. -/
theorem count_kmers_in_one_sequence_pos (sequence : List Nat)
    (kmer_length : Nat) (revcom_mode : Bool)
    (hlen : 2 * (sequence.length + 1) < u32Mod) :
    ∀ t, count_kmers_in_one_sequence sequence kmer_length revcom_mode = some t →
      tablePos t ∧ tableSum t ≤ 2 * (sequence.length + 1) := by
  intro t hsome
  unfold count_kmers_in_one_sequence at hsome
  by_cases hup : sequence.all (fun b => is_ascii_uppercase b) = true
  · rw [hup] at hsome
    simp only [Bool.not_true, Bool.false_eq_true, if_false] at hsome
    rw [Option.map_eq_some'] at hsome
    obtain ⟨t0, hcore, ht⟩ := hsome
    have hbase : tablePos t0 ∧ tableSum t0 ≤ sequence.length + 1 := by
      unfold count_kmers_core at hcore
      cases hfind : find_first_valid_kmer sequence kmer_length 0 with
      | none => rw [hfind] at hcore; exact absurd hcore (by simp)
      | some o =>
        rw [hfind] at hcore
        cases o with
        | none =>
          simp only [Option.some.injEq] at hcore
          subst hcore
          exact ⟨by intro e he; simp at he, by simp [tableSum]⟩
        | some pair =>
          obtain ⟨kh, i⟩ := pair
          have hincr : tablePos (tableIncr [] kh) ∧
              tableSum (tableIncr [] kh) = 1 := by
            constructor
            · intro e he
              simp only [tableIncr, List.mem_singleton] at he
              simp [he]
            · simp [tableIncr, tableSum]
          obtain ⟨hpt, hst⟩ := count_kmers_loop_pos sequence kmer_length
            ((1 <<< (2 * kmer_length % 64)) - 1) (sequence.length + 1) kh i
            (tableIncr [] kh) hincr.1 (by rw [hincr.2]; omega) t0 hcore
          rw [hincr.2] at hst
          exact ⟨hpt, by omega⟩
    subst ht
    cases revcom_mode with
    | false =>
      have hif : (if false = true then mergeRevcom t0 kmer_length else t0) = t0 :=
        if_neg (by simp)
      rw [hif]
      exact ⟨hbase.1, by omega⟩
    | true =>
      have hif : (if true = true then mergeRevcom t0 kmer_length else t0) =
          mergeRevcom t0 kmer_length := if_pos rfl
      rw [hif]
      obtain ⟨hm1, hm2⟩ := mergeRevcom_pos t0 kmer_length hbase.1 (by omega)
      exact ⟨hm1, by rw [hm2]; omega⟩
  · rw [Bool.not_eq_true] at hup
    rw [hup] at hsome
    exact absurd hsome (by simp)

/-- Positivity and total bound across sequences, with the per-sequence
budget `2 * (length + 1)` summed over the collection. -/
theorem count_seqs_go_pos (kmer_length : Nat) (revcom_mode : Bool)
    (seqs : List (List Nat)) :
    ∀ acc, tablePos acc →
      tableSum acc + 2 * ((seqs.map (fun s => s.length + 1)).sum) < u32Mod →
      ∀ t, count_seqs_go kmer_length revcom_mode seqs acc = some t →
        tablePos t ∧
        tableSum t ≤
          tableSum acc + 2 * ((seqs.map (fun s => s.length + 1)).sum) := by
  induction seqs with
  | nil =>
    intro acc hacc _ t hsome
    simp only [count_seqs_go, Option.some.injEq] at hsome
    subst hsome
    exact ⟨hacc, by simp⟩
  | cons s rest ih =>
    intro acc hacc hsum t hsome
    simp only [count_seqs_go] at hsome
    cases hone : count_kmers_in_one_sequence s kmer_length revcom_mode with
    | none => rw [hone] at hsome; exact absurd hsome (by simp)
    | some st =>
      rw [hone] at hsome
      have hmapsum : ((s :: rest).map (fun s => s.length + 1)).sum =
          (s.length + 1) + ((rest.map (fun s => s.length + 1)).sum) := by
        simp
      rw [hmapsum] at hsum
      obtain ⟨hstP, hstS⟩ := count_kmers_in_one_sequence_pos s kmer_length
        revcom_mode (by omega) st hone
      have hfold := foldl_tableAddCount_pos (fun k => k) st acc hstP hacc
        (by omega)
      obtain ⟨hfP, hfS⟩ := hfold
      obtain ⟨htP, htS⟩ := ih (st.foldl (fun a e => tableAddCount a e.1 e.2) acc)
        hfP (by rw [hfS]; omega) t hsome
      rw [hfS] at htS
      rw [hmapsum]
      exact ⟨htP, by omega⟩

/-- C10 amended: every count table returned by `count_kmers_in_one_sequence`
or `count_kmers_in_sequences` contains only strictly positive counts,
provided the u32 counters cannot wrap: `2 * (length + 1)` (summed over the
collection, and doubled to cover reverse-complement merging) must stay below
`2^32`.  Counts are `u32` and wrap modulo `2^32`, so without this bound a
zero count can appear (see the counterexample). -/
theorem c10_counts_positive :
    (∀ (sequence : List Nat) (kmer_length : Nat) (revcom_mode : Bool)
      (t : List (Nat × Nat)), 2 * (sequence.length + 1) < u32Mod →
      count_kmers_in_one_sequence sequence kmer_length revcom_mode = some t →
      tablePos t) ∧
    (∀ (sequences : List (List Nat)) (kmer_length : Nat) (revcom_mode : Bool)
      (t : List (Nat × Nat)),
      2 * ((sequences.map (fun s => s.length + 1)).sum) < u32Mod →
      count_kmers_in_sequences sequences kmer_length revcom_mode = some t →
      tablePos t) := by
  constructor
  · intro sequence kmer_length revcom_mode t hbound hsome
    exact (count_kmers_in_one_sequence_pos sequence kmer_length revcom_mode
      hbound t hsome).1
  · intro sequences kmer_length revcom_mode t hbound hsome
    unfold count_kmers_in_sequences at hsome
    by_cases h31 : kmer_length > 31
    · rw [if_pos h31] at hsome
      exact absurd hsome (by simp)
    · rw [if_neg h31] at hsome
      have h0 : tableSum ([] : List (Nat × Nat)) = 0 := rfl
      exact (count_seqs_go_pos kmer_length revcom_mode sequences []
        (fun e he => absurd he (by simp)) (by rw [h0]; omega) t hsome).1

/-- C10 witness: the "ATGCAT" table with reverse-complement merging, and a
two-sequence collection, both have only positive counts. -/
theorem c10_counts_positive_witness :
    (2 * ((6 : Nat) + 1) < u32Mod ∧
      ∃ t, count_kmers_in_one_sequence [65, 84, 71, 67, 65, 84] 3 true =
        some t ∧ tablePos t) ∧
    (2 * ((([[65, 84, 71], [67, 67]] : List (List Nat)).map
        (fun s => s.length + 1)).sum) < u32Mod ∧
      ∃ t, count_kmers_in_sequences [[65, 84, 71], [67, 67]] 2 false =
        some t ∧ tablePos t) := by
  constructor
  · refine ⟨by decide, ⟨_, rfl, ?_⟩⟩
    exact c10_counts_positive.1 [65, 84, 71, 67, 65, 84] 3 true _ (by decide) rfl
  · refine ⟨by decide, ⟨_, rfl, ?_⟩⟩
    exact c10_counts_positive.2 [[65, 84, 71], [67, 67]] 2 false _ (by decide) rfl

theorem replicate_uppercase (n : Nat) :
    (List.replicate n 65).all (fun b => is_ascii_uppercase b) = true := by
  rw [List.all_eq_true]
  intro b hb
  rw [List.eq_of_mem_replicate hb]
  decide

/-- On a poly-A sequence of length at least 8, the first valid 8-window is at
position 0 with hash 0. -/
theorem find_first_replicate (n : Nat) (hn : 8 ≤ n) :
    find_first_valid_kmer (List.replicate n 65) 8 0 = some (some (0, 8)) := by
  unfold find_first_valid_kmer
  rw [List.length_replicate]
  obtain ⟨m, hm⟩ : ∃ m, n - 8 + 1 - 0 = m + 1 := ⟨n - 8, by omega⟩
  rw [hm, List.range'_succ]
  simp only [find_first_go, List.length_replicate, List.drop_zero,
    List.take_replicate]
  rw [Nat.min_eq_left hn]
  rw [if_pos (by omega : 0 + 8 ≤ n)]
  rw [if_pos (by decide :
    (List.replicate 8 65).all (fun base => valid_bases.contains base) = true)]
  decide

/-- Closed form of the streaming loop on a poly-A sequence: every step stays
at hash 0 and wraps the single count modulo `2^32`. -/
theorem count_loop_replicate (n mask : Nat) :
    ∀ fuel i c, c < u32Mod → i ≤ n → n - i < fuel →
      count_kmers_loop (List.replicate n 65) 8 mask 0 i [(0, c)] fuel =
        some [(0, (c + (n - i)) % u32Mod)] := by
  intro fuel
  induction fuel with
  | zero => intro i c _ _ h3; omega
  | succ fuel ih =>
    intro i c hc hi hf
    by_cases hin : i < n
    · have hget : (List.replicate n 65).getD i 0 = 65 := by
        rw [List.getD_eq_getElem?_getD, List.getElem?_replicate, if_pos hin]
        rfl
      have hstep : count_kmers_loop (List.replicate n 65) 8 mask 0 i
          [(0, c)] (fuel + 1) =
          count_kmers_loop (List.replicate n 65) 8 mask 0 (i + 1)
            (tableIncr [(0, c)] 0) fuel := by
        simp only [count_kmers_loop, List.length_replicate, hget]
        rw [if_pos hin,
          if_pos (by decide : valid_bases.contains 65 = true)]
        have hnh : Nat.lor (Nat.land ((0 * 4) % u64Mod) mask)
            (base_to_num 65) = 0 := by
          have h1 : (0 * 4) % u64Mod = 0 := by norm_num
          have h2 : Nat.land 0 mask = 0 := Nat.zero_and mask
          rw [h1, h2]
          decide
        rw [hnh]
      rw [hstep]
      have htbl : tableIncr [(0, c)] 0 = [(0, (c + 1) % u32Mod)] := by
        simp [tableIncr]
      rw [htbl, ih (i + 1) ((c + 1) % u32Mod)
        (Nat.mod_lt _ (by norm_num [u32Mod])) (by omega) (by omega)]
      have hmod : ((c + 1) % u32Mod + (n - (i + 1))) % u32Mod =
          (c + (n - i)) % u32Mod := by
        rw [Nat.mod_add_mod]
        congr 1
        omega
      rw [hmod]
    · have hmod : (c + (n - i)) % u32Mod = c := by
        have h0 : n - i = 0 := by omega
        rw [h0, Nat.add_zero, Nat.mod_eq_of_lt hc]
      simp only [count_kmers_loop, List.length_replicate]
      rw [if_neg hin, hmod]

/-- When the initial scan finds a window, `count_kmers_core` is the
streaming loop seeded with it. -/
theorem count_kmers_core_seeded (sequence : List Nat)
    (kmer_length kh i : Nat)
    (hfind : find_first_valid_kmer sequence kmer_length 0 =
      some (some (kh, i))) :
    count_kmers_core sequence kmer_length =
      count_kmers_loop sequence kmer_length ((1 <<< (2 * kmer_length % 64)) - 1)
        kh i (tableIncr [] kh) (sequence.length + 1) := by
  unfold count_kmers_core
  rw [hfind]

/-- C10 counterexample: counts are u32 and wrap, so a single poly-A sequence
of length `2^32 + 7` with L = 8 produces the table {0 : 0} — a returned
entry with count zero, refuting strict positivity for every input. -/
theorem c10_zero_count_counterexample :
    ∃ t, count_kmers_in_one_sequence (List.replicate (u32Mod + 7) 65) 8 false =
      some t ∧ ∃ e ∈ t, e.2 = 0 := by
  have hn : 8 ≤ u32Mod + 7 := by norm_num [u32Mod]
  have hfind := find_first_replicate (u32Mod + 7) hn
  have hcore : count_kmers_core (List.replicate (u32Mod + 7) 65) 8 =
      some [(0, 0)] := by
    rw [count_kmers_core_seeded (List.replicate (u32Mod + 7) 65) 8 0 8 hfind]
    have htbl : tableIncr [] 0 = [(0, 1)] := rfl
    rw [htbl, List.length_replicate]
    rw [count_loop_replicate (u32Mod + 7) ((1 <<< (2 * 8 % 64)) - 1)
      (u32Mod + 7 + 1) 8 1 (by norm_num [u32Mod]) hn (by omega)]
    have hv : (1 + (u32Mod + 7 - 8)) % u32Mod = 0 := by
      norm_num [u32Mod]
    rw [hv]
  have h1 : count_kmers_in_one_sequence (List.replicate (u32Mod + 7) 65) 8
      false = some [(0, 0)] := by
    unfold count_kmers_in_one_sequence
    rw [replicate_uppercase]
    simp only [Bool.not_true, Bool.false_eq_true, if_false, hcore,
      Option.map_some']
  exact ⟨[(0, 0)], h1, ⟨(0, 0), by simp, rfl⟩⟩
